import Mathlib

/-
Verification of the Main DAG Index subsystem (mainDagIndex.js,
storageWithDagIndex.js, nodeDagIndex.js).

The JavaScript is embedded shallowly:

* A page record is an association list from block-hash strings to
  `(processed, children)` entries.  JavaScript distinguishes the page having
  been created as an object literal (parent path, `arrParentHashes = {}`) from
  a page created as an array literal (`arrHashes = []`, own-block path): a JS
  array carrying only string-keyed properties serialises with `JSON.stringify`
  to the empty array `[]`.  `PageObj` keeps the constructor (`obj` / `arr`)
  and `persistPage` models the stringify/parse round trip applied on every
  backend write.
* The state `St` carries the level-db backend (`pages`, keyed by page index,
  plus the order counter) and the in-memory page cache with its `timestamp`
  fields.  `Date.now()` is modelled by a strictly monotone counter `now`,
  bumped at each timestamp assignment, so cache timestamps are pairwise
  distinct and the eviction sort needs no tie-breaking.
* Operations are state-passing functions; `removeBlock` returns a success
  flag, `false` standing for the TypeError thrown when the parent row is
  destructured while absent.  In-place JS mutation of a page object aliased
  by the cache (removeBlock's parent step) is modelled by explicitly updating
  the cache entry's data without refreshing its timestamp.
-/

namespace CilDag

/-- The part of a BlockInfo the index uses: `getHash()`, `getHeight()`,
`parentHashes`. -/
structure BlockInfo where
  hash : String
  height : Nat
  parentHashes : List String
deriving Repr, DecidableEq

/-- Children map of a page entry: child hash to child height, in insertion
order (JS object with 64-char hex keys preserves insertion order). -/
abbrev Children := List (String × Nat)

/-- A page row: `[processed, children]`. -/
abbrev Entry := Bool × Children

/-- A page record.  `obj` is a page created as an object literal, `arr` a page
created as the array literal `[]` whose entries are string-keyed properties of
the array. -/
inductive PageObj where
  | obj (entries : List (String × Entry))
  | arr (entries : List (String × Entry))
deriving Repr, DecidableEq

/-- The entries of a page, whichever way it was created. -/
def PageObj.entries : PageObj → List (String × Entry)
  | .obj l => l
  | .arr l => l

/-- Replace the entries, keeping the object/array constructor (assigning a
property to a JS array keeps it an array). -/
def PageObj.withEntries : PageObj → List (String × Entry) → PageObj
  | .obj _, l => .obj l
  | .arr _, l => .arr l

/-- First-association lookup, the JS property read `m[k]`. -/
def alookup {κ α : Type} [DecidableEq κ] : List (κ × α) → κ → Option α
  | [], _ => none
  | (k, v) :: rest, key => if k = key then some v else alookup rest key

/-- Property assignment `m[k] = v`: replaces in place if the key exists
(JS keeps the original key position), else appends. -/
def aset {κ α : Type} [DecidableEq κ] : List (κ × α) → κ → α → List (κ × α)
  | [], key, val => [(key, val)]
  | (k, v) :: rest, key, val =>
      if k = key then (key, val) :: rest else (k, v) :: aset rest key val

/-- Property deletion `delete m[k]`. -/
def aremove {κ α : Type} [DecidableEq κ] : List (κ × α) → κ → List (κ × α)
  | [], _ => []
  | (k, v) :: rest, key => if k = key then rest else (k, v) :: aremove rest key

/-- `page[k] = v`. -/
def pageSet (p : PageObj) (k : String) (v : Entry) : PageObj :=
  p.withEntries (aset p.entries k v)

/-- `delete page[k]`. -/
def pageRemove (p : PageObj) (k : String) : PageObj :=
  p.withEntries (aremove p.entries k)

/-- Configuration constants and the external block store consumed by the
index (`Constants` and `storage.getBlockInfo`). -/
structure Env where
  STEP : Nat
  MAXPAGES : Nat
  MAXINV : Nat
  GENESIS : String
  blockInfos : String → Option BlockInfo

/-- A cache slot: `{ timestamp, data }`. -/
structure CachePage where
  timestamp : Nat
  data : PageObj
deriving Repr, DecidableEq

/-- Whole index state: the persistent backend (`pages` keyed by page index and
the order counter) and the in-memory page cache, plus the clock. -/
structure St where
  pages : List (Nat × PageObj)
  order : Int
  cache : List (Nat × CachePage)
  now : Nat
deriving Repr, DecidableEq

instance : Inhabited St := ⟨⟨[], 0, [], 0⟩⟩

/-- The freshly constructed index: empty cache, empty backend, absent order
key read as 0. -/
def initSt : St := ⟨[], 0, [], 0⟩

/-- `_getPageIndexByHeight`: `Math.floor(nHeight / MAIN_DAG_INDEX_STEP) *
(MAIN_DAG_INDEX_STEP - 1)`. -/
def pageIndexByHeight (e : Env) (h : Nat) : Nat :=
  h / e.STEP * (e.STEP - 1)

/-- The JSON.stringify/JSON.parse round trip applied on a backend write: an
object page survives unchanged, an array page loses its string-keyed
properties and comes back as the empty array. -/
def persistPage : PageObj → PageObj
  | .obj l => .obj l
  | .arr _ => .arr []

/-- Stable insertion for the ascending-timestamp sort (`(a, b) =>
a.timestamp - b.timestamp`); pairs are (timestamp, page index). -/
def insortTs (x : Nat × Nat) : List (Nat × Nat) → List (Nat × Nat)
  | [] => [x]
  | y :: ys => if y.1 ≤ x.1 then y :: insortTs x ys else x :: y :: ys

/-- Stable ascending sort by timestamp. -/
def sortTs (l : List (Nat × Nat)) : List (Nat × Nat) :=
  l.foldl (fun acc x => insortTs x acc) []

/-- `_releaseOldCachePages`: when the cache holds more than
`MAIN_DAG_PAGES_IN_MEMORY - 1` entries, sort ascending by timestamp, take the
slice from position `MAIN_DAG_PAGES_IN_MEMORY - 1` on, and delete those
keys. -/
def releaseOldCachePages (e : Env) (s : St) : St :=
  if s.cache.length > e.MAXPAGES - 1 then
    let sorted := sortTs (s.cache.map (fun kv => (kv.2.timestamp, kv.1)))
    let delKeys := (sorted.drop (e.MAXPAGES - 1)).map (fun p => p.2)
    { s with cache := s.cache.filter (fun kv => !delKeys.contains kv.1) }
  else s

/-- `_getMainDagPageIndex`: cache hit refreshes the timestamp and returns the
cached object; on a miss, old pages are released, the backend is read (absent
key gives null), and a found page is inserted into the cache. -/
def getMainDagPageIndex (e : Env) (h : Nat) (s : St) : Option PageObj × St :=
  let i := pageIndexByHeight e h
  match alookup s.cache i with
  | some cp =>
      (some cp.data,
        { s with cache := aset s.cache i ⟨s.now, cp.data⟩, now := s.now + 1 })
  | none =>
      let s1 := releaseOldCachePages e s
      match alookup s1.pages i with
      | none => (none, s1)
      | some pg =>
          (some pg,
            { s1 with cache := aset s1.cache i ⟨s1.now, pg⟩, now := s1.now + 1 })

/-- `_setMainDagPageIndex`: release old pages when the key is not cached,
store the live object in the cache, and write the serialised page to the
backend. -/
def setMainDagPageIndex (e : Env) (h : Nat) (page : PageObj) (s : St) : St :=
  let i := pageIndexByHeight e h
  let s1 := if (alookup s.cache i).isNone then releaseOldCachePages e s else s
  { s1 with
    cache := aset s1.cache i ⟨s1.now, page⟩,
    now := s1.now + 1,
    pages := aset s1.pages i (persistPage page) }

/-- `incMainDagIndexOrder` with the default increment. -/
def incOrder (s : St) : St := { s with order := s.order + 1 }

/-- `decMainDagIndexOrder`. -/
def decOrder (s : St) : St := { s with order := s.order - 1 }

/-- One iteration of `addBlock`'s parent loop: resolve the parent's
BlockInfo (absence is skipped), load its page (empty object if missing), and
for a direct parent (`nBlockHeight - nParentBlockHeight === 1`) create the
placeholder row (incrementing the order) or extend the children map; the page
is written back in every case. -/
def addParentStep (e : Env) (strBlockHash : String) (nBlockHeight : Nat)
    (p : String) (s : St) : St :=
  match e.blockInfos p with
  | none => s
  | some pbi =>
      let res := getMainDagPageIndex e pbi.height s
      let page := res.1.getD (PageObj.obj [])
      let step :=
        if nBlockHeight - pbi.height = 1 then
          match alookup page.entries p with
          | none =>
              (pageSet page p (false, [(strBlockHash, nBlockHeight)]),
                incOrder res.2)
          | some en =>
              (pageSet page p (en.1, aset en.2 strBlockHash nBlockHeight), res.2)
        else (page, res.2)
      setMainDagPageIndex e pbi.height step.1 step.2

/-- `addBlock`: parents are processed unless the block is the genesis
sentinel; then the block's own page is loaded (the empty ARRAY literal `[]`
when missing), its row is created with `processed = true` (incrementing the
order) or promoted from a placeholder, and the page is written back. -/
def addBlock (e : Env) (bi : BlockInfo) (s : St) : St :=
  let s0 :=
    if bi.hash ≠ e.GENESIS then
      bi.parentHashes.foldl (fun st p => addParentStep e bi.hash bi.height p st) s
    else s
  let res := getMainDagPageIndex e bi.height s0
  let page := res.1.getD (PageObj.arr [])
  let step :=
    match alookup page.entries bi.hash with
    | none => (pageSet page bi.hash (true, []), incOrder res.2)
    | some en =>
        if en.1 then (page, res.2) else (pageSet page bi.hash (true, en.2), res.2)
  setMainDagPageIndex e bi.height step.1 step.2

/-- Update the data of a cache slot in place without refreshing its
timestamp: models the JS mutation of a page object that is aliased by the
cache. -/
def cacheUpdateData (c : List (Nat × CachePage)) (i : Nat) (pg : PageObj) :
    List (Nat × CachePage) :=
  c.map (fun kv => if kv.1 = i then (kv.1, ⟨kv.2.timestamp, pg⟩) else kv)

/-- One iteration of `removeBlock`'s parent loop. The Bool is false when the
code throws: `const [bIsProcessed, objChildren] =
arrParentHashes[strParentBlockHash]` destructures an absent row. Note the
write-back goes to `nBlockHeight` — the removed block's height — while the
cached parent page is mutated in place through the alias. -/
def removeParentStep (e : Env) (strHash : String) (nBlockHeight : Nat)
    (p : String) (s : St) : St × Bool :=
  match e.blockInfos p with
  | none => (s, true)
  | some pbi =>
      let res := getMainDagPageIndex e pbi.height s
      match res.1 with
      | none => (res.2, true)
      | some page =>
          match alookup page.entries p with
          | none => (res.2, false)
          | some en =>
              match alookup en.2 strHash with
              | none => (res.2, true)
              | some chHt =>
                  if chHt = 0 then (res.2, true)
                  else
                    let children := aremove en.2 strHash
                    let step :=
                      if children.isEmpty && !en.1 then
                        (pageRemove page p, decOrder res.2)
                      else (pageSet page p (en.1, children), res.2)
                    let s2 :=
                      { step.2 with
                        cache := cacheUpdateData step.2.cache
                          (pageIndexByHeight e pbi.height) step.1 }
                    (setMainDagPageIndex e nBlockHeight step.1 s2, true)

/-- `removeBlock`'s parent loop; stops at the first raising step. -/
def removeParents (e : Env) (strHash : String) (nBlockHeight : Nat) :
    List String → St → St × Bool
  | [], s => (s, true)
  | p :: rest, s =>
      let step := removeParentStep e strHash nBlockHeight p s
      if step.2 then removeParents e strHash nBlockHeight rest step.1
      else (step.1, false)

/-- The own-row phase of `removeBlock`: none models the early
`if (!arrHashes) return` (the parent loop is never entered); otherwise the
block's row is deleted when present, the page flushed and the order
decremented. -/
def removeOwnResult (e : Env) (bi : BlockInfo) (s : St) : Option St :=
  let res := getMainDagPageIndex e bi.height s
  match res.1 with
  | none => none
  | some page =>
      match alookup page.entries bi.hash with
      | none => some res.2
      | some _ =>
          let page1 := pageRemove page bi.hash
          some (decOrder (setMainDagPageIndex e bi.height page1 res.2))

/-- `removeBlock`; the Bool is false when the parent loop throws. -/
def removeBlock (e : Env) (bi : BlockInfo) (s : St) : St × Bool :=
  match removeOwnResult e bi s with
  | none => ((getMainDagPageIndex e bi.height s).2, true)
  | some s1 => removeParents e bi.hash bi.height bi.parentHashes s1

/-- The page the index would observe for a height: cache first, then the
backend. -/
def viewPage (e : Env) (s : St) (h : Nat) : Option PageObj :=
  let i := pageIndexByHeight e h
  match alookup s.cache i with
  | some cp => some cp.data
  | none => alookup s.pages i

/-- The truthiness chain `indexPage && indexPage[strHash] &&
indexPage[strHash][0]`. -/
def pageProcessed (mp : Option PageObj) (str : String) : Bool :=
  match mp with
  | some pg =>
      match alookup pg.entries str with
      | some en => en.1
      | none => false
  | none => false

/-- `has(strHash, nBlockHeight)`: with an omitted height the block store is
consulted first (unknown hash gives false). -/
def hasQ (e : Env) (str : String) (oh : Option Nat) (s : St) : Bool × St :=
  match oh with
  | some h =>
      let res := getMainDagPageIndex e h s
      (pageProcessed res.1 str, res.2)
  | none =>
      match e.blockInfos str with
      | none => (false, s)
      | some bi =>
          let res := getMainDagPageIndex e bi.height s
          (pageProcessed res.1 str, res.2)

/-- The ternary `indexPage && indexPage[strHash] && indexPage[strHash][0] ?
indexPage[strHash][1] : {}`. -/
def childrenOf (mp : Option PageObj) (str : String) : Children :=
  match mp with
  | some pg =>
      match alookup pg.entries str with
      | some en => if en.1 then en.2 else []
      | none => []
  | none => []

/-- `getChildren(strHash, nBlockHeight)`. -/
def getChildrenQ (e : Env) (str : String) (h : Nat) (s : St) : Children × St :=
  let res := getMainDagPageIndex e h s
  (childrenOf res.1 str, res.2)

/-- `getBlockHeight(strHash)`: resolve through the block store, then confirm
the block is processed in the index. -/
def getBlockHeightQ (e : Env) (str : String) (s : St) : Option Nat × St :=
  match e.blockInfos str with
  | none => (none, s)
  | some bi =>
      let res := hasQ e str (some bi.height) s
      (if res.1 then some bi.height else none, res.2)

/-- `getBlockInfo(strHash)`. -/
def getBlockInfoQ (e : Env) (str : String) (s : St) : Option BlockInfo × St :=
  match e.blockInfos str with
  | none => (none, s)
  | some bi =>
      let res := getMainDagPageIndex e bi.height s
      (if pageProcessed res.1 str then some bi else none, res.2)

/-- A JSON value, as far as page records need: booleans, numbers, arrays and
string-keyed objects. -/
inductive Jv where
  | b (v : Bool)
  | n (v : Nat)
  | arrv (l : List Jv)
  | objv (l : List (String × Jv))

/-- JSON encoding of a children map. -/
def encodeChildren (ch : Children) : List (String × Jv) :=
  ch.map (fun kv => (kv.1, Jv.n kv.2))

/-- JSON encoding of a page row: the two-element array `[processed,
children]`. -/
def encodeEntry (en : Entry) : Jv :=
  .arrv [.b en.1, .objv (encodeChildren en.2)]

/-- `JSON.stringify` of a page record, as a JSON value: an object page
serialises its rows; an array page serialises only its (absent) indexed
elements, i.e. to `[]`. -/
def encodePage : PageObj → Jv
  | .obj l => .objv (l.map (fun kv => (kv.1, encodeEntry kv.2)))
  | .arr _ => .arrv []

/-- Decode a children object. -/
def decodeChildren : List (String × Jv) → Option Children
  | [] => some []
  | (k, .n v) :: rest =>
      match decodeChildren rest with
      | some ch => some ((k, v) :: ch)
      | none => none
  | _ => none

/-- Decode a page row. -/
def decodeEntry : Jv → Option Entry
  | .arrv [.b v, .objv l] =>
      match decodeChildren l with
      | some ch => some (v, ch)
      | none => none
  | _ => none

/-- Decode the rows of an object page. -/
def decodeRows : List (String × Jv) → Option (List (String × Entry))
  | [] => some []
  | (k, jv) :: rest =>
      match decodeEntry jv, decodeRows rest with
      | some en, some l => some ((k, en) :: l)
      | _, _ => none

/-- `JSON.parse` of a persisted page record. -/
def decodePage : Jv → Option PageObj
  | .objv l =>
      match decodeRows l with
      | some rows => some (.obj rows)
      | none => none
  | .arrv [] => some (.arr [])
  | _ => none

/-- `_getBlocksFromLastKnown`'s first loop: resolve each last-known hash
through `getBlockHeight` and collect the found ones into the known map. -/
def resolveKnown (e : Env) :
    List String → List (String × Nat) → St → List (String × Nat) × St
  | [], acc, s => (acc, s)
  | x :: rest, acc, s =>
      let res := getBlockHeightQ e x s
      match res.1 with
      | some h => resolveKnown e rest (aset acc x h) res.2
      | none => resolveKnown e rest acc res.2

/-- The body of the walker's do-while: process each hash of the current
level, feeding fresh children into the next level and the hash itself into
the result set; `break` fires when the result set exceeds
`MAX_BLOCKS_INV`. Returns (result set, next level, state). -/
def walkLevel (e : Env) (known : List (String × Nat)) :
    List (String × Nat) → List String → List (String × Nat) → St →
    List String × List (String × Nat) × St
  | [], sent, next, s => (sent, next, s)
  | (x, hx) :: rest, sent, next, s =>
      let res := getChildrenQ e x hx s
      let next1 := res.1.foldl
        (fun nx c =>
          if (alookup known c.1).isSome || sent.contains c.1 then nx
          else aset nx c.1 c.2)
        next
      if (alookup known x).isSome || sent.contains x then
        walkLevel e known rest sent next1 res.2
      else
        let sent1 := sent ++ [x]
        if sent1.length > e.MAXINV then (sent1, next1, res.2)
        else walkLevel e known rest sent1 next1 res.2

/-- The walker's do-while loop, with explicit fuel (the JS loop terminates on
reachable states because the hash universe is finite; the fuel bounds the
number of levels). -/
def walkLoop (e : Env) (known : List (String × Nat)) :
    Nat → List (String × Nat) → List String → St → List String × St
  | 0, _, sent, s => (sent, s)
  | Nat.succ fuel, cur, sent, s =>
      let res := walkLevel e known cur sent [] s
      if res.2.1 ≠ [] ∧ res.1.length < e.MAXINV then
        walkLoop e known fuel res.2.1 res.1 res.2.2
      else (res.1, res.2.2)

/-- `_getBlocksFromLastKnown`: resolve the last-known hashes; when none
resolves, fall back to the genesis hash (empty result when genesis is not
indexed either, otherwise genesis is pre-inserted into the result); then walk
levels of direct children. -/
def getBlocksFromLastKnown (e : Env) (fuel : Nat) (arr : List String)
    (s : St) : List String × St :=
  let res := resolveKnown e arr [] s
  if res.1.isEmpty then
    let rg := getBlockHeightQ e e.GENESIS res.2
    match rg.1 with
    | none => ([], rg.2)
    | some h =>
        walkLoop e [(e.GENESIS, h)] fuel [(e.GENESIS, h)] [e.GENESIS] rg.2
  else walkLoop e res.1 fuel res.1 [] res.2

/-- A public DagIndex operation, for quantifying over call sequences. -/
inductive Op where
  | addB (bi : BlockInfo)
  | removeB (bi : BlockInfo)
  | hasB (x : String) (oh : Option Nat)
  | childrenB (x : String) (h : Nat)
  | heightB (x : String)
  | infoB (x : String)
  | orderB

/-- State effect of one public operation (a raising removeBlock leaves the
state it had reached when it threw). -/
def applyOp (e : Env) : Op → St → St
  | .addB bi, s => addBlock e bi s
  | .removeB bi, s => (removeBlock e bi s).1
  | .hasB x oh, s => (hasQ e x oh s).2
  | .childrenB x h, s => (getChildrenQ e x h s).2
  | .heightB x, s => (getBlockHeightQ e x s).2
  | .infoB x, s => (getBlockInfoQ e x s).2
  | .orderB, s => s

/-- The states reached after each operation of a call sequence. -/
def statesOf (e : Env) : List Op → St → List St
  | [], _ => []
  | op :: rest, s =>
      let s1 := applyOp e op s
      s1 :: statesOf e rest s1

theorem alookup_aset {κ α : Type} [DecidableEq κ] (l : List (κ × α)) (k k' : κ)
    (v : α) :
    alookup (aset l k v) k' = if k' = k then some v else alookup l k' := by
  induction l with
  | nil =>
      by_cases h : k' = k
      · subst h
        simp [aset, alookup]
      · have h2 : ¬ k = k' := fun hk => h hk.symm
        simp [aset, alookup, h, h2]
  | cons hd tl ih =>
      obtain ⟨k0, v0⟩ := hd
      by_cases h0 : k0 = k
      · subst h0
        by_cases h1 : k' = k0
        · subst h1
          simp [aset, alookup]
        · have h2 : ¬ k0 = k' := fun hk => h1 hk.symm
          simp [aset, alookup, h1, h2]
      · by_cases h1 : k0 = k'
        · subst h1
          simp [aset, alookup, h0]
        · simp [aset, alookup, h0, h1, ih]

theorem releaseOld_pages (e : Env) (s : St) :
    (releaseOldCachePages e s).pages = s.pages := by
  unfold releaseOldCachePages
  split <;> rfl

theorem releaseOld_order (e : Env) (s : St) :
    (releaseOldCachePages e s).order = s.order := by
  unfold releaseOldCachePages
  split <;> rfl

theorem getPage_fst_eq_view (e : Env) (h : Nat) (s : St) :
    (getMainDagPageIndex e h s).1 = viewPage e s h := by
  simp only [getMainDagPageIndex, viewPage]
  cases hc : alookup s.cache (pageIndexByHeight e h) with
  | some cp => simp [hc]
  | none =>
      simp only [hc, releaseOld_pages]
      cases hb : alookup s.pages (pageIndexByHeight e h) <;> simp [hb]

/-- Environment for the idempotence failure: `MAIN_DAG_INDEX_STEP = 2`,
`MAIN_DAG_PAGES_IN_MEMORY = 2`; three resolvable gap parents at heights 4, 9
and 5 (pages 2, 4 and 2). -/
def envReAdd : Env :=
  ⟨2, 2, 10, "G", fun x =>
    if x = "PA" then some ⟨"PA", 4, []⟩
    else if x = "PB" then some ⟨"PB", 9, []⟩
    else if x = "PC" then some ⟨"PC", 5, []⟩
    else none⟩

/-- The re-added block: height 2 (own page index 1), parents PA, PB, PC. -/
def blkReAdd : BlockInfo := ⟨"B", 2, ["PA", "PB", "PC"]⟩

/-- C1: the claim fails on the code.  `addBlock` creates the block's own
page as the array literal `[]`; its string-keyed row is dropped by
`JSON.stringify`, so the page persists as the empty array.  During the second
`addBlock` the cache (here of capacity 2) evicts the own page while the gap
parents are re-processed, the page is re-read from the backend without the
row, and the order counter is incremented again: `getOrder()` grows from 1 to
2 on the re-add, contradicting the claim and the repository's own test
"should rewrite vertex (add multiple times)". -/
theorem c1_order_grows_on_second_add :
    (addBlock envReAdd blkReAdd initSt).order = 1 ∧
    (addBlock envReAdd blkReAdd (addBlock envReAdd blkReAdd initSt)).order = 2 := by
  constructor <;> rfl

/-- Environment for the lost-persistence failure: `STEP = 2`, one resolvable
direct parent P at height 1 (page 0); the block B sits at height 2 (page 1). -/
def envLost : Env :=
  ⟨2, 10, 10, "G", fun x => if x = "P" then some ⟨"P", 1, []⟩ else none⟩

/-- The added block for the persistence failure. -/
def blkLost : BlockInfo := ⟨"B", 2, ["P"]⟩

/-- C2: the claim fails on the code.  After `addBlock`, the in-memory cached
page reports B processed, but the page was created as the array literal `[]`,
so the value persisted to the backend is the empty JSON array: the backend
page for B's height holds no entry for B, and the serialise/deserialise round
trip (`encodePage`/`decodePage`) of the cached page also drops the row.  After
cache eviction B's entry is gone. -/
theorem c2_persisted_entry_lost :
    pageProcessed (viewPage envLost (addBlock envLost blkLost initSt) 2) "B"
      = true ∧
    alookup (addBlock envLost blkLost initSt).pages
      (pageIndexByHeight envLost 2) = some (PageObj.arr []) ∧
    pageProcessed (alookup (addBlock envLost blkLost initSt).pages
      (pageIndexByHeight envLost 2)) "B" = false ∧
    encodePage (PageObj.arr [("B", (true, []))]) = Jv.arrv [] ∧
    decodePage (Jv.arrv []) = some (PageObj.arr []) :=
  ⟨rfl, rfl, rfl, rfl, rfl⟩

/-- Environment and cache for the eviction failure: capacity 3, three cached
pages with timestamps 1 < 2 < 3 at page indexes 10, 20, 30. -/
def envEvict : Env := ⟨2, 3, 10, "G", fun _ => none⟩

/-- Cache with three entries of strictly increasing last-access times. -/
def stEvict : St :=
  ⟨[], 0, [(10, ⟨1, .obj []⟩), (20, ⟨2, .obj []⟩), (30, ⟨3, .obj []⟩)], 4⟩

/-- C4: the claim fails on the code, which is at odds with its own comment
("delete old pages from cache if it's full").  With the cache over the
capacity threshold, `_releaseOldCachePages` sorts ascending by timestamp and
deletes the slice from position `MAIN_DAG_PAGES_IN_MEMORY - 1` on — the
entries with the LARGEST `lastAccess`.  Here the retained keys are 10 and 20,
the two oldest, and the deleted entry is 30, the most recently accessed —
the opposite of the claimed LRU policy. -/
theorem c4_eviction_deletes_newest :
    (releaseOldCachePages envEvict stEvict).cache.map (fun kv => kv.1)
      = [10, 20] := rfl

/-- Environment for the cross-page removal failure: `STEP = 4`; parent P at
height 3 lives on page 0, block B at height 4 lives on page 3. -/
def envCross : Env :=
  ⟨4, 10, 10, "G", fun x =>
    if x = "P" then some ⟨"P", 3, []⟩
    else if x = "B" then some ⟨"B", 4, ["P"]⟩
    else none⟩

/-- Backend state before the removal: page 0 holds P with child B, page 3
holds B's own row. -/
def stCross : St :=
  ⟨[(0, .obj [("P", (true, [("B", 4)]))]), (3, .obj [("B", (true, []))])],
    2, [], 0⟩

/-- The removed block. -/
def blkCross : BlockInfo := ⟨"B", 4, ["P"]⟩

/-- C5: the claim fails on the code.  `removeBlock`'s parent cleanup writes
the updated parent page with `_setMainDagPageIndex(nBlockHeight, ...)` — the
REMOVED block's height — so when `pageIndex(parentHeight) = 0` differs from
`pageIndex(blockHeight) = 3`, the persisted parent page still lists B among
P's children, while page 3 is clobbered with the parent page's content. -/
theorem c5_parent_page_stale_and_clobbered :
    pageIndexByHeight envCross 3 = 0 ∧
    pageIndexByHeight envCross 4 = 3 ∧
    alookup (removeBlock envCross blkCross stCross).1.pages 0
      = some (PageObj.obj [("P", (true, [("B", 4)]))]) ∧
    alookup (removeBlock envCross blkCross stCross).1.pages 3
      = some (PageObj.obj [("P", (true, []))]) :=
  ⟨rfl, rfl, rfl, rfl⟩

/-- C3: `_getPageIndexByHeight` computes `floor(h / STEP) * (STEP - 1)`, the
backend write of `_setMainDagPageIndex` touches exactly that key (with the
serialised page), and `_getMainDagPageIndex` returns the page observed at
that key (cache first, then backend). -/
theorem c3_page_key_formula (e : Env) (h : Nat) (s : St) (page : PageObj) :
    pageIndexByHeight e h = h / e.STEP * (e.STEP - 1) ∧
    (∀ i, alookup (setMainDagPageIndex e h page s).pages i =
      if i = pageIndexByHeight e h then some (persistPage page)
      else alookup s.pages i) ∧
    (getMainDagPageIndex e h s).1 = viewPage e s h := by
  refine ⟨rfl, fun i => ?_, getPage_fst_eq_view e h s⟩
  have hp : (if (alookup s.cache (pageIndexByHeight e h)).isNone then
      releaseOldCachePages e s else s).pages = s.pages := by
    split
    · exact releaseOld_pages e s
    · rfl
  simp only [setMainDagPageIndex, alookup_aset, hp]

theorem insortTs_perm (x : Nat × Nat) :
    ∀ l : List (Nat × Nat), (insortTs x l).Perm (x :: l)
  | [] => List.Perm.refl _
  | y :: ys => by
      simp only [insortTs]
      split
      · exact (List.Perm.cons y (insortTs_perm x ys)).trans (List.Perm.swap x y ys)
      · exact List.Perm.refl _

theorem foldl_insortTs_perm : ∀ (l acc : List (Nat × Nat)),
    (l.foldl (fun a x => insortTs x a) acc).Perm (acc ++ l)
  | [], acc => by simp
  | x :: xs, acc => by
      simp only [List.foldl_cons]
      refine (foldl_insortTs_perm xs (insortTs x acc)).trans ?_
      refine (List.Perm.append_right xs (insortTs_perm x acc)).trans ?_
      exact List.perm_middle.symm

theorem sortTs_perm (l : List (Nat × Nat)) : (sortTs l).Perm l := by
  simpa using foldl_insortTs_perm l []

theorem length_filter_drop_le (n : Nat) (l : List (Nat × CachePage)) :
    (l.filter (fun kv =>
      !(((sortTs (l.map fun kv2 => (kv2.2.timestamp, kv2.1))).drop n).map
          (fun p => p.2)).contains kv.1)).length ≤ n := by
  set sorted := sortTs (l.map fun kv2 => (kv2.2.timestamp, kv2.1)) with hsorted
  set delKeys := (sorted.drop n).map (fun p => p.2) with hdel
  have hperm : sorted.Perm (l.map fun kv2 => (kv2.2.timestamp, kv2.1)) :=
    sortTs_perm _
  have h1 : (l.filter (fun kv => !delKeys.contains kv.1)).length
      = l.countP (fun kv => !delKeys.contains kv.1) :=
    (List.countP_eq_length_filter _ _).symm
  have h2 : l.countP (fun kv => !delKeys.contains kv.1)
      = (l.map fun kv2 => (kv2.2.timestamp, kv2.1)).countP
          (fun q => !delKeys.contains q.2) := by
    rw [List.countP_map]
    rfl
  have h3 : (l.map fun kv2 => (kv2.2.timestamp, kv2.1)).countP
        (fun q => !delKeys.contains q.2)
      = sorted.countP (fun q => !delKeys.contains q.2) :=
    (hperm.countP_eq _).symm
  have h4 : sorted.countP (fun q => !delKeys.contains q.2)
      = (sorted.take n).countP (fun q => !delKeys.contains q.2)
        + (sorted.drop n).countP (fun q => !delKeys.contains q.2) := by
    conv_lhs => rw [← List.take_append_drop n sorted]
    exact List.countP_append _ _ _
  have h5 : (sorted.drop n).countP (fun q => !delKeys.contains q.2) = 0 := by
    refine List.countP_eq_zero.mpr ?_
    intro q hq
    have hmem : q.2 ∈ delKeys := by
      rw [hdel]
      exact List.mem_map_of_mem _ hq
    have hcont : delKeys.contains q.2 = true := List.elem_iff.mpr hmem
    simp [hcont]
    exact hmem
  have h6 : (sorted.take n).countP (fun q => !delKeys.contains q.2) ≤ n :=
    le_trans (List.countP_le_length _) (List.length_take_le n sorted)
  rw [h1, h2, h3, h4, h5]
  omega

theorem releaseOld_cache_le (e : Env) (s : St) :
    (releaseOldCachePages e s).cache.length ≤ e.MAXPAGES - 1 := by
  unfold releaseOldCachePages
  split
  · exact length_filter_drop_le (e.MAXPAGES - 1) s.cache
  · next h => exact Nat.le_of_not_lt h

theorem length_aset_le {κ α : Type} [DecidableEq κ] (l : List (κ × α)) (k : κ)
    (v : α) : (aset l k v).length ≤ l.length + 1 := by
  induction l with
  | nil => simp [aset]
  | cons hd tl ih =>
      obtain ⟨k0, v0⟩ := hd
      by_cases h : k0 = k
      · subst h
        simp [aset]
      · simp only [aset, if_neg h, List.length_cons]
        exact Nat.succ_le_succ ih

theorem length_aset_of_lookup {κ α : Type} [DecidableEq κ] (l : List (κ × α))
    (k : κ) (v : α) (h : (alookup l k).isSome) :
    (aset l k v).length = l.length := by
  induction l with
  | nil => simp [alookup] at h
  | cons hd tl ih =>
      obtain ⟨k0, v0⟩ := hd
      by_cases h0 : k0 = k
      · simp [aset, h0]
      · simp only [alookup, if_neg h0] at h
        simp only [aset, if_neg h0, List.length_cons]
        rw [ih h]

theorem getPage_cache_le (e : Env) (h : Nat) (s : St)
    (hM : 1 ≤ e.MAXPAGES) (hs : s.cache.length ≤ e.MAXPAGES) :
    (getMainDagPageIndex e h s).2.cache.length ≤ e.MAXPAGES := by
  simp only [getMainDagPageIndex]
  cases hc : alookup s.cache (pageIndexByHeight e h) with
  | some cp =>
      simp only [hc]
      rw [length_aset_of_lookup s.cache _ _ (by rw [hc]; rfl)]
      exact hs
  | none =>
      have hr := releaseOld_cache_le e s
      simp only [hc]
      cases hb : alookup (releaseOldCachePages e s).pages (pageIndexByHeight e h) with
      | none =>
          simp only [hb]
          exact hr.trans (Nat.sub_le _ _)
      | some pg =>
          simp only [hb]
          calc (aset (releaseOldCachePages e s).cache (pageIndexByHeight e h)
                ⟨(releaseOldCachePages e s).now, pg⟩).length
              ≤ (releaseOldCachePages e s).cache.length + 1 :=
                length_aset_le _ _ _
            _ ≤ (e.MAXPAGES - 1) + 1 := Nat.succ_le_succ hr
            _ = e.MAXPAGES := by omega

theorem setPage_cache_le (e : Env) (h : Nat) (page : PageObj) (s : St)
    (hM : 1 ≤ e.MAXPAGES) (hs : s.cache.length ≤ e.MAXPAGES) :
    (setMainDagPageIndex e h page s).cache.length ≤ e.MAXPAGES := by
  simp only [setMainDagPageIndex]
  by_cases hc : (alookup s.cache (pageIndexByHeight e h)).isNone
  · rw [if_pos hc]
    calc (aset (releaseOldCachePages e s).cache (pageIndexByHeight e h)
          ⟨(releaseOldCachePages e s).now, page⟩).length
        ≤ (releaseOldCachePages e s).cache.length + 1 := length_aset_le _ _ _
      _ ≤ (e.MAXPAGES - 1) + 1 := Nat.succ_le_succ (releaseOld_cache_le e s)
      _ = e.MAXPAGES := by omega
  · rw [if_neg hc]
    have hsome : (alookup s.cache (pageIndexByHeight e h)).isSome := by
      cases halo : alookup s.cache (pageIndexByHeight e h)
      · exact absurd (by rw [halo]; rfl) hc
      · rfl
    rw [length_aset_of_lookup s.cache _ _ hsome]
    exact hs

theorem addParentStep_cache_le (e : Env) (strBlockHash : String)
    (nBlockHeight : Nat) (p : String) (s : St)
    (hM : 1 ≤ e.MAXPAGES) (hs : s.cache.length ≤ e.MAXPAGES) :
    (addParentStep e strBlockHash nBlockHeight p s).cache.length
      ≤ e.MAXPAGES := by
  simp only [addParentStep]
  cases e.blockInfos p with
  | none => exact hs
  | some pbi =>
      have h1 := getPage_cache_le e pbi.height s hM hs
      refine setPage_cache_le e pbi.height _ _ hM ?_
      split
      · split <;> exact h1
      · exact h1

theorem addBlock_cache_le (e : Env) (bi : BlockInfo) (s : St)
    (hM : 1 ≤ e.MAXPAGES) (hs : s.cache.length ≤ e.MAXPAGES) :
    (addBlock e bi s).cache.length ≤ e.MAXPAGES := by
  have hfold : ∀ (ps : List String) (t : St), t.cache.length ≤ e.MAXPAGES →
      (ps.foldl (fun st p => addParentStep e bi.hash bi.height p st)
        t).cache.length ≤ e.MAXPAGES := by
    intro ps
    induction ps with
    | nil => intro t ht; exact ht
    | cons p rest ih =>
        intro t ht
        exact ih _ (addParentStep_cache_le e bi.hash bi.height p t hM ht)
  simp only [addBlock]
  have hs0 : (if bi.hash ≠ e.GENESIS then
      bi.parentHashes.foldl
        (fun st p => addParentStep e bi.hash bi.height p st) s
      else s).cache.length ≤ e.MAXPAGES := by
    split
    · exact hfold _ _ hs
    · exact hs
  have h1 := getPage_cache_le e bi.height _ hM hs0
  refine setPage_cache_le e bi.height _ _ hM ?_
  split
  · exact h1
  · split <;> exact h1

theorem length_cacheUpdateData (c : List (Nat × CachePage)) (i : Nat)
    (pg : PageObj) : (cacheUpdateData c i pg).length = c.length :=
  List.length_map _ _

theorem removeParentStep_cache_le (e : Env) (strHash : String)
    (nBlockHeight : Nat) (p : String) (s : St)
    (hM : 1 ≤ e.MAXPAGES) (hs : s.cache.length ≤ e.MAXPAGES) :
    (removeParentStep e strHash nBlockHeight p s).1.cache.length
      ≤ e.MAXPAGES := by
  simp only [removeParentStep]
  cases e.blockInfos p with
  | none => exact hs
  | some pbi =>
      have h1 := getPage_cache_le e pbi.height s hM hs
      cases hg : (getMainDagPageIndex e pbi.height s).1 with
      | none => simp only [hg]; exact h1
      | some page =>
          simp only [hg]
          cases hl : alookup page.entries p with
          | none => simp only [hl]; exact h1
          | some en =>
              simp only [hl]
              cases hc : alookup en.2 strHash with
              | none => simp only [hc]; exact h1
              | some chHt =>
                  simp only [hc]
                  by_cases h0 : chHt = 0
                  · simp only [h0, if_pos rfl]
                    exact h1
                  · rw [if_neg h0]
                    show (setMainDagPageIndex e nBlockHeight _ _).cache.length
                      ≤ e.MAXPAGES
                    refine setPage_cache_le e nBlockHeight _ _ hM ?_
                    show (cacheUpdateData _ _ _).length ≤ e.MAXPAGES
                    rw [length_cacheUpdateData]
                    split <;> exact h1

theorem removeParents_cache_le (e : Env) (strHash : String)
    (nBlockHeight : Nat) (ps : List String) :
    ∀ s : St, 1 ≤ e.MAXPAGES → s.cache.length ≤ e.MAXPAGES →
    (removeParents e strHash nBlockHeight ps s).1.cache.length
      ≤ e.MAXPAGES := by
  induction ps with
  | nil => intro s _ hs; exact hs
  | cons p rest ih =>
      intro s hM hs
      have h1 := removeParentStep_cache_le e strHash nBlockHeight p s hM hs
      simp only [removeParents]
      split
      · exact ih _ hM h1
      · exact h1

theorem removeOwnResult_cache_le (e : Env) (bi : BlockInfo) (s : St)
    (hM : 1 ≤ e.MAXPAGES) (hs : s.cache.length ≤ e.MAXPAGES) :
    ∀ s1, removeOwnResult e bi s = some s1 →
      s1.cache.length ≤ e.MAXPAGES := by
  intro s1 hres
  have h1 := getPage_cache_le e bi.height s hM hs
  simp only [removeOwnResult] at hres
  cases hg : (getMainDagPageIndex e bi.height s).1 with
  | none =>
      simp only [hg] at hres
      exact Option.noConfusion hres
  | some page =>
      simp only [hg] at hres
      cases hl : alookup page.entries bi.hash with
      | none =>
          simp only [hl, Option.some.injEq] at hres
          rw [← hres]
          exact h1
      | some en =>
          simp only [hl, Option.some.injEq] at hres
          rw [← hres]
          exact setPage_cache_le e bi.height _ _ hM h1

theorem removeBlock_cache_le (e : Env) (bi : BlockInfo) (s : St)
    (hM : 1 ≤ e.MAXPAGES) (hs : s.cache.length ≤ e.MAXPAGES) :
    (removeBlock e bi s).1.cache.length ≤ e.MAXPAGES := by
  simp only [removeBlock]
  cases hres : removeOwnResult e bi s with
  | none => exact getPage_cache_le e bi.height s hM hs
  | some s1 =>
      exact removeParents_cache_le e bi.hash bi.height bi.parentHashes s1 hM
        (removeOwnResult_cache_le e bi s hM hs s1 hres)

theorem hasQ_cache_le (e : Env) (x : String) (oh : Option Nat) (s : St)
    (hM : 1 ≤ e.MAXPAGES) (hs : s.cache.length ≤ e.MAXPAGES) :
    (hasQ e x oh s).2.cache.length ≤ e.MAXPAGES := by
  cases oh with
  | some h => exact getPage_cache_le e h s hM hs
  | none =>
      simp only [hasQ]
      cases e.blockInfos x with
      | none => exact hs
      | some bi => exact getPage_cache_le e bi.height s hM hs

theorem applyOp_cache_le (e : Env) (op : Op) (s : St)
    (hM : 1 ≤ e.MAXPAGES) (hs : s.cache.length ≤ e.MAXPAGES) :
    (applyOp e op s).cache.length ≤ e.MAXPAGES := by
  cases op with
  | addB bi => exact addBlock_cache_le e bi s hM hs
  | removeB bi => exact removeBlock_cache_le e bi s hM hs
  | hasB x oh => exact hasQ_cache_le e x oh s hM hs
  | childrenB x h => exact getPage_cache_le e h s hM hs
  | heightB x =>
      simp only [applyOp, getBlockHeightQ]
      cases e.blockInfos x with
      | none => exact hs
      | some bi => exact hasQ_cache_le e x (some bi.height) s hM hs
  | infoB x =>
      simp only [applyOp, getBlockInfoQ]
      cases e.blockInfos x with
      | none => exact hs
      | some bi => exact getPage_cache_le e bi.height s hM hs
  | orderB => exact hs

/-- C9: along any finite sequence of public DagIndex operations started from
a state whose cache is within capacity (in particular the freshly
constructed, empty-cache index), the in-memory page cache never exceeds
`MAIN_DAG_PAGES_IN_MEMORY` entries (capacity at least 1). -/
theorem c9_cache_capacity (e : Env) (ops : List Op) (s : St)
    (hM : 1 ≤ e.MAXPAGES) (hs : s.cache.length ≤ e.MAXPAGES) :
    ∀ s1 ∈ statesOf e ops s, s1.cache.length ≤ e.MAXPAGES := by
  induction ops generalizing s with
  | nil => intro s1 h1; simp [statesOf] at h1
  | cons op rest ih =>
      intro s1 h1
      simp only [statesOf, List.mem_cons] at h1
      have hstep := applyOp_cache_le e op s hM hs
      cases h1 with
      | inl h => rw [h]; exact hstep
      | inr h => exact ih _ hstep s1 h

/-- Concrete configuration for the capacity witness: capacity 1. -/
def envCap : Env := ⟨2, 1, 10, "G", fun _ => none⟩

/-- Witness for C9 at capacity 1 with two adds and a remove from the fresh
index. -/
theorem c9_cache_capacity_witness :
    1 ≤ envCap.MAXPAGES ∧ initSt.cache.length ≤ envCap.MAXPAGES ∧
      ∀ s1 ∈ statesOf envCap
        [Op.addB ⟨"B", 2, ["X"]⟩, Op.addB ⟨"B", 2, ["X"]⟩,
         Op.removeB ⟨"B", 2, ["X"]⟩] initSt,
        s1.cache.length ≤ envCap.MAXPAGES :=
  ⟨by decide, by decide,
    c9_cache_capacity envCap _ initSt (by decide) (by decide)⟩

/-- The raising condition of one parent iteration of `removeBlock`, spelled
on the state at that iteration: the parent's BlockInfo resolves, its page
exists, but the page has no row for the parent — the unconditional
destructuring `const [bIsProcessed, objChildren] = arrParentHashes[p]` then
throws a TypeError. -/
def parentRowMissing (e : Env) (p : String) (s : St) : Bool :=
  match e.blockInfos p with
  | none => false
  | some pbi =>
      match (getMainDagPageIndex e pbi.height s).1 with
      | none => false
      | some page => (alookup page.entries p).isNone

/-- The claimed precondition of `removeBlock`'s parent loop: at each
iteration, in list order and on the state produced by the preceding
iterations, no resolvable parent with an existing page lacks its row. -/
def parentsOkB (e : Env) (strHash : String) (nBlockHeight : Nat) :
    List String → St → Bool
  | [], _ => true
  | p :: rest, s =>
      !parentRowMissing e p s &&
        parentsOkB e strHash nBlockHeight rest
          (removeParentStep e strHash nBlockHeight p s).1

theorem removeParentStep_snd (e : Env) (strHash : String) (nBlockHeight : Nat)
    (p : String) (s : St) :
    (removeParentStep e strHash nBlockHeight p s).2
      = !parentRowMissing e p s := by
  simp only [removeParentStep, parentRowMissing]
  cases e.blockInfos p with
  | none => rfl
  | some pbi =>
      cases hg : (getMainDagPageIndex e pbi.height s).1 with
      | none => simp [hg]
      | some page =>
          cases hl : alookup page.entries p with
          | none => simp [hg, hl]
          | some en =>
              cases hc : alookup en.2 strHash with
              | none => simp [hg, hl, hc]
              | some chHt =>
                  by_cases h0 : chHt = 0 <;> simp [hg, hl, hc, h0]

theorem removeParents_snd (e : Env) (strHash : String) (nBlockHeight : Nat)
    (ps : List String) :
    ∀ s, (removeParents e strHash nBlockHeight ps s).2
      = parentsOkB e strHash nBlockHeight ps s := by
  induction ps with
  | nil => intro s; rfl
  | cons p rest ih =>
      intro s
      have h2 := removeParentStep_snd e strHash nBlockHeight p s
      simp only [removeParents, parentsOkB]
      cases hm : parentRowMissing e p s with
      | false =>
          rw [hm] at h2
          simp [h2, ih]
      | true =>
          rw [hm] at h2
          simp [h2]

/-- C10: `removeBlock` completes without raising exactly when either its
early return fires (the block's own page is absent, so the parent loop is
never entered) or every parent that resolves through the block store and
whose page exists at that iteration has a row in that page; when a page
exists without the parent's row, the unconditional destructuring raises
instead of skipping that parent. -/
theorem c10_remove_raises_iff (e : Env) (bi : BlockInfo) (s : St) :
    (removeBlock e bi s).2 = true ↔
      (removeOwnResult e bi s = none ∨
        parentsOkB e bi.hash bi.height bi.parentHashes
          ((removeOwnResult e bi s).getD default) = true) := by
  cases ho : removeOwnResult e bi s with
  | none => simp [removeBlock, ho]
  | some s1 => simp [removeBlock, ho, removeParents_snd]

/-- A coherent cache: every cached page equals the backend value under its
key.  This holds for a fresh index and is preserved by all reads; it is the
premise under which the read-only walker behaves as a pure function of the
backend. -/
def GoodCache (s : St) : Prop :=
  ∀ kv ∈ s.cache, alookup s.pages kv.1 = some kv.2.data

theorem alookup_mem {κ α : Type} [DecidableEq κ] (l : List (κ × α)) (k : κ)
    (v : α) (h : alookup l k = some v) : (k, v) ∈ l := by
  induction l with
  | nil => simp [alookup] at h
  | cons hd tl ih =>
      obtain ⟨k0, v0⟩ := hd
      simp only [alookup] at h
      by_cases h0 : k0 = k
      · subst h0
        rw [if_pos rfl] at h
        injection h with h
        subst h
        exact List.mem_cons_self _ _
      · rw [if_neg h0] at h
        exact List.mem_cons_of_mem _ (ih h)

theorem mem_aset {κ α : Type} [DecidableEq κ] (l : List (κ × α)) (k : κ)
    (v : α) (kv : κ × α) (h : kv ∈ aset l k v) : kv = (k, v) ∨ kv ∈ l := by
  induction l with
  | nil => simpa [aset] using h
  | cons hd tl ih =>
      obtain ⟨k0, v0⟩ := hd
      by_cases h0 : k0 = k
      · subst h0
        simp only [aset, if_pos rfl] at h
        rcases List.mem_cons.mp h with h | h
        · exact Or.inl h
        · exact Or.inr (List.mem_cons_of_mem _ h)
      · simp only [aset, if_neg h0] at h
        rcases List.mem_cons.mp h with h | h
        · exact Or.inr (by rw [h]; exact List.mem_cons_self _ _)
        · rcases ih h with h2 | h2
          · exact Or.inl h2
          · exact Or.inr (List.mem_cons_of_mem _ h2)

theorem releaseOld_cache_subset (e : Env) (s : St) (kv : Nat × CachePage)
    (h : kv ∈ (releaseOldCachePages e s).cache) : kv ∈ s.cache := by
  unfold releaseOldCachePages at h
  split at h
  · exact List.mem_of_mem_filter h
  · exact h

theorem goodCache_releaseOld (e : Env) (s : St) (hg : GoodCache s) :
    GoodCache (releaseOldCachePages e s) := by
  intro kv hkv
  rw [releaseOld_pages]
  exact hg kv (releaseOld_cache_subset e s kv hkv)

theorem getPage_spec (e : Env) (h : Nat) (s : St) (hg : GoodCache s) :
    (getMainDagPageIndex e h s).1 = alookup s.pages (pageIndexByHeight e h) ∧
    (getMainDagPageIndex e h s).2.pages = s.pages ∧
    GoodCache (getMainDagPageIndex e h s).2 := by
  simp only [getMainDagPageIndex]
  cases hc : alookup s.cache (pageIndexByHeight e h) with
  | some cp =>
      simp only [hc]
      have hdata := hg _ (alookup_mem _ _ _ hc)
      refine ⟨hdata.symm, by trivial, ?_⟩
      intro kv hkv
      rcases mem_aset _ _ _ _ hkv with h2 | h2
      · rw [h2]
        exact hdata
      · exact hg _ h2
  | none =>
      simp only [hc]
      cases hb : alookup (releaseOldCachePages e s).pages (pageIndexByHeight e h) with
      | none =>
          simp only [hb]
          rw [releaseOld_pages] at hb
          exact ⟨hb.symm, releaseOld_pages e s, goodCache_releaseOld e s hg⟩
      | some pg =>
          simp only [hb]
          have hb2 := hb
          rw [releaseOld_pages] at hb2
          refine ⟨hb2.symm, releaseOld_pages e s, ?_⟩
          intro kv hkv

          rcases mem_aset _ _ _ _ hkv with h2 | h2
          · rw [h2]
            simpa [releaseOld_pages] using hb2
          · simpa [releaseOld_pages] using
              goodCache_releaseOld e s hg kv h2

/-- `has(hash, height)` as a pure function of the backend. -/
def pureHas (e : Env) (pages : List (Nat × PageObj)) (x : String)
    (h : Nat) : Bool :=
  pageProcessed (alookup pages (pageIndexByHeight e h)) x

/-- `getBlockHeight` as a pure function of the backend. -/
def getBlockHeightPure (e : Env) (pages : List (Nat × PageObj))
    (x : String) : Option Nat :=
  match e.blockInfos x with
  | none => none
  | some bi => if pureHas e pages x bi.height then some bi.height else none

/-- `getChildren` as a pure function of the backend. -/
def childrenPure (e : Env) (pages : List (Nat × PageObj)) (x : String)
    (h : Nat) : Children :=
  childrenOf (alookup pages (pageIndexByHeight e h)) x

theorem hasQ_spec (e : Env) (x : String) (h : Nat) (s : St)
    (hg : GoodCache s) :
    (hasQ e x (some h) s).1 = pureHas e s.pages x h ∧
    (hasQ e x (some h) s).2.pages = s.pages ∧
    GoodCache (hasQ e x (some h) s).2 := by
  obtain ⟨h1, h2, h3⟩ := getPage_spec e h s hg
  simp only [hasQ]
  exact ⟨by rw [h1]; rfl, h2, h3⟩

theorem getBlockHeightQ_spec (e : Env) (x : String) (s : St)
    (hg : GoodCache s) :
    (getBlockHeightQ e x s).1 = getBlockHeightPure e s.pages x ∧
    (getBlockHeightQ e x s).2.pages = s.pages ∧
    GoodCache (getBlockHeightQ e x s).2 := by
  simp only [getBlockHeightQ, getBlockHeightPure]
  cases hbi : e.blockInfos x with
  | none => exact ⟨rfl, by trivial, hg⟩
  | some bi =>
      obtain ⟨h1, h2, h3⟩ := hasQ_spec e x bi.height s hg
      refine ⟨?_, h2, h3⟩
      show (if (hasQ e x (some bi.height) s).1 = true then some bi.height
          else none)
        = if pureHas e s.pages x bi.height = true then some bi.height else none
      rw [h1]

theorem getChildrenQ_spec (e : Env) (x : String) (h : Nat) (s : St)
    (hg : GoodCache s) :
    (getChildrenQ e x h s).1 = childrenPure e s.pages x h ∧
    (getChildrenQ e x h s).2.pages = s.pages ∧
    GoodCache (getChildrenQ e x h s).2 := by
  obtain ⟨h1, h2, h3⟩ := getPage_spec e h s hg
  simp only [getChildrenQ, childrenPure]
  rw [h1]
  exact ⟨rfl, h2, h3⟩

/-- The known-hash resolution of `_getBlocksFromLastKnown` as a pure
function of the backend. -/
def resolvePure (e : Env) (pages : List (Nat × PageObj)) :
    List String → List (String × Nat) → List (String × Nat)
  | [], acc => acc
  | x :: rest, acc =>
      match getBlockHeightPure e pages x with
      | some h => resolvePure e pages rest (aset acc x h)
      | none => resolvePure e pages rest acc

theorem resolveKnown_spec (e : Env) (arr : List String) :
    ∀ (acc : List (String × Nat)) (s : St), GoodCache s →
    (resolveKnown e arr acc s).1 = resolvePure e s.pages arr acc ∧
    (resolveKnown e arr acc s).2.pages = s.pages ∧
    GoodCache (resolveKnown e arr acc s).2 := by
  induction arr with
  | nil => intro acc s hg; exact ⟨rfl, rfl, hg⟩
  | cons x rest ih =>
      intro acc s hg
      obtain ⟨h1, h2, h3⟩ := getBlockHeightQ_spec e x s hg
      simp only [resolveKnown, resolvePure]
      cases hr : (getBlockHeightQ e x s).1 with
      | some h =>
          rw [hr] at h1
          obtain ⟨i1, i2, i3⟩ := ih (aset acc x h) (getBlockHeightQ e x s).2 h3
          rw [h2] at i1 i2
          refine ⟨?_, i2, i3⟩
          rw [← h1]
          exact i1
      | none =>
          rw [hr] at h1
          obtain ⟨i1, i2, i3⟩ := ih acc (getBlockHeightQ e x s).2 h3
          rw [h2] at i1 i2
          refine ⟨?_, i2, i3⟩
          rw [← h1]
          exact i1

theorem resolvePure_all_none (e : Env) (pages : List (Nat × PageObj)) :
    ∀ (arr : List String) (acc : List (String × Nat)),
    (∀ x ∈ arr, getBlockHeightPure e pages x = none) →
    resolvePure e pages arr acc = acc := by
  intro arr
  induction arr with
  | nil => intro acc _; rfl
  | cons x rest ih =>
      intro acc hall
      have hx := hall x (List.mem_cons_self _ _)
      simp only [resolvePure, hx]
      exact ih acc (fun y hy => hall y (List.mem_cons_of_mem _ hy))

theorem alookup_aset_isSome {κ α : Type} [DecidableEq κ]
    (l : List (κ × α)) (k : κ) (v : α) (k' : κ)
    (h : (alookup l k').isSome) : (alookup (aset l k v) k').isSome := by
  rw [alookup_aset]
  split
  · rfl
  · exact h

theorem resolvePure_lookup_mono (e : Env) (pages : List (Nat × PageObj)) :
    ∀ (arr : List String) (acc : List (String × Nat)) (x : String),
    (alookup acc x).isSome →
    (alookup (resolvePure e pages arr acc) x).isSome := by
  intro arr
  induction arr with
  | nil => intro acc x h; exact h
  | cons y ys ih =>
      intro acc x h
      simp only [resolvePure]
      cases getBlockHeightPure e pages y with
      | some hh => exact ih _ x (alookup_aset_isSome acc y hh x h)
      | none => exact ih acc x h

theorem resolvePure_mem (e : Env) (pages : List (Nat × PageObj)) :
    ∀ (arr : List String) (acc : List (String × Nat)) (x : String) (h : Nat),
    x ∈ arr → getBlockHeightPure e pages x = some h →
    (alookup (resolvePure e pages arr acc) x).isSome := by
  intro arr
  induction arr with
  | nil => intro acc x h hmem; exact absurd hmem (List.not_mem_nil x)
  | cons y ys ih =>
      intro acc x h hmem hres
      rcases List.mem_cons.mp hmem with heq | hmem2
      · subst heq
        simp only [resolvePure, hres]
        refine resolvePure_lookup_mono e pages ys (aset acc x h) x ?_
        rw [alookup_aset, if_pos rfl]
        rfl
      · simp only [resolvePure]
        cases getBlockHeightPure e pages y with
        | some hh => exact ih _ x h hmem2 hres
        | none => exact ih acc x h hmem2 hres

/-- Forward reachability through the direct-child edges recorded in the
backend pages; each node carries the height used for its page lookup. -/
inductive Reach (e : Env) (pages : List (Nat × PageObj)) :
    String × Nat → String × Nat → Prop
  | refl (a : String × Nat) : Reach e pages a a
  | step {a b c : String × Nat} : Reach e pages a b →
      c ∈ childrenPure e pages b.1 b.2 → Reach e pages a c

/-- The walker's root set: the resolvable last-known hashes with their
heights, or the genesis pair when none resolves and genesis is indexed. -/
def rootsOf (e : Env) (pages : List (Nat × PageObj)) (arr : List String) :
    List (String × Nat) :=
  let known := resolvePure e pages arr []
  if known.isEmpty then
    match getBlockHeightPure e pages e.GENESIS with
    | some h => [(e.GENESIS, h)]
    | none => []
  else known

theorem mem_addChildren (known : List (String × Nat)) (sent : List String) :
    ∀ (ch : Children) (next : List (String × Nat)) (p : String × Nat),
    p ∈ ch.foldl (fun nx c =>
      if (alookup known c.1).isSome || sent.contains c.1 then nx
      else aset nx c.1 c.2) next →
    p ∈ next ∨ p ∈ ch := by
  intro ch
  induction ch with
  | nil => intro next p hp; exact Or.inl hp
  | cons c ct ih =>
      intro next p hp
      simp only [List.foldl_cons] at hp
      rcases ih _ p hp with h | h
      · by_cases hc : ((alookup known c.1).isSome || sent.contains c.1) = true
        · rw [if_pos hc] at h
          exact Or.inl h
        · rw [if_neg hc] at h
          rcases mem_aset _ _ _ _ h with h2 | h2
          · right
            rw [h2]
            exact List.mem_cons_self _ _
          · exact Or.inl h2
      · exact Or.inr (List.mem_cons_of_mem _ h)

theorem walkLevel_inv (e : Env) (pages : List (Nat × PageObj))
    (known : List (String × Nat)) (P : String → Prop)
    (PP : String → Nat → Prop)
    (hstep : ∀ x hx, PP x hx → ∀ c ∈ childrenPure e pages x hx, PP c.1 c.2)
    (hsend : ∀ x hx, PP x hx → alookup known x = none → P x) :
    ∀ (cur : List (String × Nat)) (sent : List String)
      (next : List (String × Nat)) (s : St),
    GoodCache s → s.pages = pages →
    (∀ p ∈ cur, PP p.1 p.2) → (∀ x ∈ sent, P x) →
    (∀ p ∈ next, PP p.1 p.2) →
    (∀ x ∈ (walkLevel e known cur sent next s).1, P x) ∧
    (∀ p ∈ (walkLevel e known cur sent next s).2.1, PP p.1 p.2) ∧
    (walkLevel e known cur sent next s).2.2.pages = pages ∧
    GoodCache (walkLevel e known cur sent next s).2.2 := by
  intro cur
  induction cur with
  | nil =>
      intro sent next s hgc hpg hcur hsent hnext
      exact ⟨hsent, hnext, hpg, hgc⟩
  | cons p rest ih =>
      obtain ⟨x, hx⟩ := p
      intro sent next s hgc hpg hcur hsent hnext
      obtain ⟨g1, g2, g3⟩ := getChildrenQ_spec e x hx s hgc
      have hch : (getChildrenQ e x hx s).1 = childrenPure e pages x hx := by
        rw [g1, hpg]
      have hg2 : (getChildrenQ e x hx s).2.pages = pages := by rw [g2, hpg]
      have hppx : PP x hx := hcur (x, hx) (List.mem_cons_self _ _)
      have hnext1 : ∀ q ∈ (getChildrenQ e x hx s).1.foldl
          (fun nx c => if (alookup known c.1).isSome || sent.contains c.1
            then nx else aset nx c.1 c.2) next, PP q.1 q.2 := by
        intro q hq
        rcases mem_addChildren known sent _ next q hq with h | h
        · exact hnext q h
        · refine hstep x hx hppx q ?_
          rw [← hch]
          exact h
      have hrest : ∀ q ∈ rest, PP q.1 q.2 :=
        fun q hq => hcur q (List.mem_cons_of_mem _ hq)
      simp only [walkLevel]
      by_cases hguard : ((alookup known x).isSome || sent.contains x) = true
      · rw [if_pos hguard]
        exact ih sent _ _ g3 hg2 hrest hsent hnext1
      · rw [if_neg hguard]
        have hkn : alookup known x = none := by
          cases hk : alookup known x with
          | none => rfl
          | some v =>
              exfalso
              apply hguard
              rw [hk]
              simp
        have hPx : P x := hsend x hx hppx hkn
        have hsent1 : ∀ y ∈ sent ++ [x], P y := by
          intro y hy
          rcases List.mem_append.mp hy with h | h
          · exact hsent y h
          · rw [List.mem_singleton.mp h]
            exact hPx
        by_cases hbrk : (sent ++ [x]).length > e.MAXINV
        · rw [if_pos hbrk]
          exact ⟨hsent1, hnext1, hg2, g3⟩
        · rw [if_neg hbrk]
          exact ih (sent ++ [x]) _ _ g3 hg2 hrest hsent1 hnext1

theorem walkLoop_inv (e : Env) (pages : List (Nat × PageObj))
    (known : List (String × Nat)) (P : String → Prop)
    (PP : String → Nat → Prop)
    (hstep : ∀ x hx, PP x hx → ∀ c ∈ childrenPure e pages x hx, PP c.1 c.2)
    (hsend : ∀ x hx, PP x hx → alookup known x = none → P x) :
    ∀ (fuel : Nat) (cur : List (String × Nat)) (sent : List String) (s : St),
    GoodCache s → s.pages = pages →
    (∀ p ∈ cur, PP p.1 p.2) → (∀ x ∈ sent, P x) →
    ∀ x ∈ (walkLoop e known fuel cur sent s).1, P x := by
  intro fuel
  induction fuel with
  | zero => intro cur sent s _ _ _ hsent x hxm; exact hsent x hxm
  | succ fuel ih =>
      intro cur sent s hgc hpg hcur hsent
      obtain ⟨w1, w2, w3, w4⟩ :=
        walkLevel_inv e pages known P PP hstep hsend cur sent [] s hgc hpg
          hcur hsent (by intro q hq; exact absurd hq (List.not_mem_nil q))
      simp only [walkLoop]
      split
      · exact ih _ _ _ w4 w3 w2 w1
      · exact w1

theorem walkLevel_sent_mono (e : Env) (known : List (String × Nat)) :
    ∀ (cur : List (String × Nat)) (sent : List String)
      (next : List (String × Nat)) (s : St) (x : String),
    x ∈ sent → x ∈ (walkLevel e known cur sent next s).1 := by
  intro cur
  induction cur with
  | nil => intro sent next s x hx; exact hx
  | cons p rest ih =>
      obtain ⟨y, hy⟩ := p
      intro sent next s x hx
      simp only [walkLevel]
      split
      · exact ih _ _ _ x hx
      · split
        · exact List.mem_append.mpr (Or.inl hx)
        · exact ih _ _ _ x (List.mem_append.mpr (Or.inl hx))

theorem walkLoop_sent_mono (e : Env) (known : List (String × Nat)) :
    ∀ (fuel : Nat) (cur : List (String × Nat)) (sent : List String)
      (s : St) (x : String),
    x ∈ sent → x ∈ (walkLoop e known fuel cur sent s).1 := by
  intro fuel
  induction fuel with
  | zero => intro cur sent s x hx; exact hx
  | succ fuel ih =>
      intro cur sent s x hx
      simp only [walkLoop]
      split
      · exact ih _ _ _ x (walkLevel_sent_mono e known cur sent [] s x hx)
      · exact walkLevel_sent_mono e known cur sent [] s x hx

/-- C7: when none of the last-known hashes resolves through the index, the
walker returns the empty set if genesis is not indexed either; when genesis
is indexed, the returned set contains the genesis hash (it is pre-inserted
before the level walk and the result set only grows). -/
theorem c7_walker_recovery (e : Env) (fuel : Nat) (arr : List String) (s : St)
    (hg : GoodCache s)
    (hnone : ∀ x ∈ arr, getBlockHeightPure e s.pages x = none) :
    (getBlockHeightPure e s.pages e.GENESIS = none →
      (getBlocksFromLastKnown e fuel arr s).1 = []) ∧
    (∀ h0, getBlockHeightPure e s.pages e.GENESIS = some h0 →
      e.GENESIS ∈ (getBlocksFromLastKnown e fuel arr s).1) := by
  obtain ⟨r1, r2, r3⟩ := resolveKnown_spec e arr [] s hg
  have hkempty : (resolveKnown e arr [] s).1 = [] := by
    rw [r1]
    exact resolvePure_all_none e s.pages arr [] hnone
  obtain ⟨q1, q2, q3⟩ :=
    getBlockHeightQ_spec e e.GENESIS (resolveKnown e arr [] s).2 r3
  rw [r2] at q1
  simp only [getBlocksFromLastKnown, hkempty, List.isEmpty_nil, if_true]
  constructor
  · intro hgen
    rw [hgen] at q1
    rw [q1]
  · intro h0 hgen
    rw [hgen] at q1
    rw [q1]
    exact walkLoop_sent_mono e _ fuel _ _ _ e.GENESIS
      (List.mem_singleton.mpr rfl)

/-- Environment where only genesis is known to the block store. -/
def envGen : Env :=
  ⟨2, 10, 10, "G", fun x => if x = "G" then some ⟨"G", 0, []⟩ else none⟩

/-- Backend with genesis indexed as a processed vertex on page 0. -/
def stGen : St := ⟨[(0, .obj [("G", (true, []))])], 1, [], 0⟩

/-- Witness for C7: lastKnown = [X] with X unknown, genesis indexed — the
walker seeds the result with the genesis hash. -/
theorem c7_walker_recovery_witness :
    GoodCache stGen ∧
    (∀ x ∈ ["X"], getBlockHeightPure envGen stGen.pages x = none) ∧
    getBlockHeightPure envGen stGen.pages envGen.GENESIS = some 0 ∧
    envGen.GENESIS ∈ (getBlocksFromLastKnown envGen 5 ["X"] stGen).1 :=
  ⟨fun kv hkv => absurd hkv (List.not_mem_nil kv),
   by decide,
   by decide,
   (c7_walker_recovery envGen 5 ["X"] stGen
      (fun kv hkv => absurd hkv (List.not_mem_nil kv)) (by decide)).2 0
      (by decide)⟩

/-- Environment with a lost block: A is processed at height 0 with B listed
as its direct child, but B's own BlockInfo is gone from the block store, so
`getBlockHeight(B)` is null. -/
def envWrong : Env :=
  ⟨2, 10, 10, "G", fun x => if x = "A" then some ⟨"A", 0, []⟩ else none⟩

/-- Backend for the walker counterexample: page 0 holds A processed with
child B at height 1. -/
def stWrong : St := ⟨[(0, .obj [("A", (true, [("B", 1)]))])], 2, [], 0⟩

/-- C8 counterexample: with lastKnown = [A, B], A resolvable and B not, the
walker returns a set containing B itself — an element of lastKnown — because
the guard only excludes the RESOLVED last-known hashes (`mapKnownHashes`),
not the raw input list.  This falsifies the claim's second conjunct. -/
theorem c8_lastknown_in_result_cex :
    "B" ∈ (getBlocksFromLastKnown envWrong 5 ["A", "B"] stWrong).1 ∧
    "B" ∈ ["A", "B"] := by
  constructor
  · decide
  · decide

/-- C8 (amended): every hash the walker returns is reachable from one of the
roots (the resolved last-known pairs, or genesis in the recovery case)
through the child edges recorded in the backend, and no last-known hash that
RESOLVES through the index appears in the result; an unresolved last-known
hash may appear (see the counterexample). -/
theorem c8_descendant_safety (e : Env) (fuel : Nat) (arr : List String)
    (s : St) (hg : GoodCache s) :
    ∀ x ∈ (getBlocksFromLastKnown e fuel arr s).1,
      (∃ r, r ∈ rootsOf e s.pages arr ∧ ∃ hx, Reach e s.pages r (x, hx)) ∧
      (x ∈ arr → getBlockHeightPure e s.pages x = none) := by
  obtain ⟨r1, r2, r3⟩ := resolveKnown_spec e arr [] s hg
  simp only [getBlocksFromLastKnown, r1]
  by_cases hke : (resolvePure e s.pages arr []).isEmpty = true
  · rw [if_pos hke]
    have hkeq : resolvePure e s.pages arr [] = [] :=
      List.isEmpty_iff.mp hke
    have hunres : ∀ y ∈ arr, getBlockHeightPure e s.pages y = none := by
      intro y hy
      cases hres : getBlockHeightPure e s.pages y with
      | none => rfl
      | some hh =>
          exfalso
          have hsome := resolvePure_mem e s.pages arr [] y hh hy hres
          rw [hkeq] at hsome
          simp [alookup] at hsome
    obtain ⟨q1, q2, q3⟩ :=
      getBlockHeightQ_spec e e.GENESIS (resolveKnown e arr [] s).2 r3
    rw [r2] at q1 q2
    cases hgen : getBlockHeightPure e s.pages e.GENESIS with
    | none =>
        rw [hgen] at q1
        rw [q1]
        intro x hx
        exact absurd hx (List.not_mem_nil x)
    | some h0 =>
        rw [hgen] at q1
        rw [q1]
        have hroots : rootsOf e s.pages arr = [(e.GENESIS, h0)] := by
          simp only [rootsOf, hkeq, List.isEmpty_nil, if_true, hgen]
        intro x hx
        refine walkLoop_inv e s.pages [(e.GENESIS, h0)]
          (fun y => (∃ r, r ∈ rootsOf e s.pages arr ∧
              ∃ hy, Reach e s.pages r (y, hy)) ∧
            (y ∈ arr → getBlockHeightPure e s.pages y = none))
          (fun y hy => ∃ r, r ∈ rootsOf e s.pages arr ∧
            Reach e s.pages r (y, hy))
          ?_ ?_ fuel [(e.GENESIS, h0)] [e.GENESIS] _ q3 q2 ?_ ?_ x hx
        · intro y hy hpp c hc
          obtain ⟨r, hr, hreach⟩ := hpp
          exact ⟨r, hr, Reach.step hreach hc⟩
        · intro y hy hpp _
          exact ⟨⟨hpp.choose, hpp.choose_spec.1, hy, hpp.choose_spec.2⟩,
            fun hyarr => hunres y hyarr⟩
        · intro p hp
          rw [List.mem_singleton.mp hp]
          refine ⟨(e.GENESIS, h0), ?_, Reach.refl _⟩
          rw [hroots]
          exact List.mem_singleton.mpr rfl
        · intro y hy
          rw [List.mem_singleton.mp hy]
          refine ⟨⟨(e.GENESIS, h0), ?_, h0, Reach.refl _⟩,
            fun hyarr => hunres e.GENESIS hyarr⟩
          rw [hroots]
          exact List.mem_singleton.mpr rfl
  · rw [if_neg hke]
    have hroots : rootsOf e s.pages arr = resolvePure e s.pages arr [] := by
      simp only [rootsOf]
      rw [if_neg hke]
    intro x hx
    refine walkLoop_inv e s.pages (resolvePure e s.pages arr [])
      (fun y => (∃ r, r ∈ rootsOf e s.pages arr ∧
          ∃ hy, Reach e s.pages r (y, hy)) ∧
        (y ∈ arr → getBlockHeightPure e s.pages y = none))
      (fun y hy => ∃ r, r ∈ rootsOf e s.pages arr ∧
        Reach e s.pages r (y, hy))
      ?_ ?_ fuel (resolvePure e s.pages arr []) [] _ r3 r2 ?_ ?_ x hx
    · intro y hy hpp c hc
      obtain ⟨r, hr, hreach⟩ := hpp
      exact ⟨r, hr, Reach.step hreach hc⟩
    · intro y hy hpp hnone
      refine ⟨⟨hpp.choose, hpp.choose_spec.1, hy, hpp.choose_spec.2⟩, ?_⟩
      intro hyarr
      cases hres : getBlockHeightPure e s.pages y with
      | none => rfl
      | some hh =>
          exfalso
          have hsome := resolvePure_mem e s.pages arr [] y hh hyarr hres
          rw [hnone] at hsome
          exact Bool.noConfusion hsome
    · intro p hp
      refine ⟨p, ?_, Reach.refl _⟩
      rw [hroots]
      exact hp
    · intro y hy
      exact absurd hy (List.not_mem_nil y)

/-- Witness for the amended C8 at the counterexample scenario: the returned
hash B is reachable from a root and, being returned while in lastKnown, is
necessarily unresolved. -/
theorem c8_descendant_safety_witness :
    GoodCache stWrong ∧
    "B" ∈ (getBlocksFromLastKnown envWrong 5 ["A", "B"] stWrong).1 ∧
    ((∃ r, r ∈ rootsOf envWrong stWrong.pages ["A", "B"] ∧
        ∃ hx, Reach envWrong stWrong.pages r ("B", hx)) ∧
      ("B" ∈ ["A", "B"] →
        getBlockHeightPure envWrong stWrong.pages "B" = none)) :=
  ⟨fun kv hkv => absurd hkv (List.not_mem_nil kv),
   by decide,
   c8_descendant_safety envWrong 5 ["A", "B"] stWrong
     (fun kv hkv => absurd hkv (List.not_mem_nil kv)) "B" (by decide)⟩

/-- C6: `has(hash, height)` returns true exactly when the page observed at
`pageIndex(height)` has an entry for the hash with `processed = true`; with
the height omitted, the block store resolves it first and an unknown hash
yields false. -/
theorem c6_has_iff (e : Env) (str : String) (h : Nat) (s : St) :
    ((hasQ e str (some h) s).1 = pageProcessed (viewPage e s h) str) ∧
    ((hasQ e str none s).1 =
      match e.blockInfos str with
      | none => false
      | some bi => pageProcessed (viewPage e s bi.height) str) ∧
    (∀ mp : Option PageObj, pageProcessed mp str = true ↔
      ∃ pg ch, mp = some pg ∧ alookup pg.entries str = some (true, ch)) := by
  refine ⟨?_, ?_, ?_⟩
  · simp [hasQ, getPage_fst_eq_view]
  · cases hbi : e.blockInfos str with
    | none => simp [hasQ, hbi]
    | some bi => simp [hasQ, hbi, getPage_fst_eq_view]
  · intro mp
    cases mp with
    | none => simp [pageProcessed]
    | some pg =>
        cases hl : alookup pg.entries str with
        | none => simp [pageProcessed, hl]
        | some en =>
            obtain ⟨b, ch⟩ := en
            cases b <;> simp [pageProcessed, hl]

end CilDag
